import Mathlib

/-!
Verification development for the fast-fuzzy repository.

Python strings are embedded as `List Char`; Python `None`-able strings as
`Option (List Char)`; floating point confidences as `ℚ` (the claims under
study concern ordering and arithmetic structure, which the rationals model
exactly); Python dicts with insertion order as association lists.

External collaborators (sklearn's TfidfVectorizer, the nmslib
nearest-neighbor backend, the peewee row-store) are modelled as oracle
functions supplied in an environment record: the claims under study do not
depend on their numeric behavior, only on how the repository's own code
composes them.
-/

namespace FastFuzzy

/-! ## String normalization: `FuzzyIndex.encode_string` (src/fuzzy_index.py lines 53-57)

`unidecode(re.sub(" +", "", re.sub(r'[^\w ]+', '', text)).strip().lower())`
-/

/-- Model of Python's regex `\w` (word character) restricted to the characters
exercised in this development: ASCII alphanumerics and underscore, plus the
non-ASCII word characters used in concrete inputs below ('é' and the CJK
character with code point 0x5317, both of which Python's Unicode `\w`
matches). -/
def isWordChar (c : Char) : Bool :=
  c.isAlphanum || c = '_' || c = 'é' || c = '北'

/-- `re.sub(r'[^\w ]+', '', s)`: delete every character that is neither a word
character nor a space. -/
def keepWordSpace (s : List Char) : List Char :=
  s.filter (fun c => isWordChar c || c = ' ')

/-- `re.sub(" +", "", s)`: delete every space character (the pattern matches
runs of ASCII spaces only). -/
def removeSpaces (s : List Char) : List Char :=
  s.filter (fun c => !(c = ' '))

/-- Python `str.strip` whitespace class (ASCII portion; non-ASCII whitespace
cannot reach the `strip` call because the preceding substitution deletes it). -/
def pyIsSpace (c : Char) : Bool :=
  c = ' ' || c = '\t' || c = '\n' || c = '\r' || c = '\x0b' || c = '\x0c'

/-- Python `str.strip`: drop leading and trailing whitespace. -/
def pyStrip (s : List Char) : List Char :=
  ((s.dropWhile pyIsSpace).reverse.dropWhile pyIsSpace).reverse

/-- Python `str.lower` on one character (ASCII case mapping; the non-ASCII
characters used in this development are their own lower case). -/
def lowerChar (c : Char) : Char :=
  match c with
  | 'A' => 'a' | 'B' => 'b' | 'C' => 'c' | 'D' => 'd' | 'E' => 'e'
  | 'F' => 'f' | 'G' => 'g' | 'H' => 'h' | 'I' => 'i' | 'J' => 'j'
  | 'K' => 'k' | 'L' => 'l' | 'M' => 'm' | 'N' => 'n' | 'O' => 'o'
  | 'P' => 'p' | 'Q' => 'q' | 'R' => 'r' | 'S' => 's' | 'T' => 't'
  | 'U' => 'u' | 'V' => 'v' | 'W' => 'w' | 'X' => 'x' | 'Y' => 'y'
  | 'Z' => 'z'
  | _ => c

/-- Python `str.lower`. -/
def pyLower (s : List Char) : List Char :=
  s.map lowerChar

/-- Model of the external `unidecode` library on one character: the identity
on the ASCII range, and transliteration for the non-ASCII characters
exercised in this development. Per the library, CJK transliterations carry a
trailing space: `unidecode` of the character 0x5317 ("north", as in Beijing)
is the four characters `Bei `. Unmapped characters transliterate to the
empty string. -/
def unidecodeChar (c : Char) : List Char :=
  if c.val < 0x80 then [c]
  else if c = 'é' then ['e']
  else if c = '北' then ['B', 'e', 'i', ' ']
  else []

/-- Model of the external `unidecode` library on a string: concatenation of
the per-character transliterations. -/
def unidecodeStr (s : List Char) : List Char :=
  (s.map unidecodeChar).flatten

/-- `FuzzyIndex.encode_string` (src/fuzzy_index.py lines 53-57): `None` maps
to `None`; otherwise strip non-word characters, remove spaces, strip, lower
case, transliterate. -/
def encode_string : Option (List Char) → Option (List Char)
  | none => none
  | some text => some (unidecodeStr (pyLower (pyStrip (removeSpaces (keepWordSpace text)))))

/-- Python truthiness of an optional string: `None` and the empty string are
falsy. -/
def truthy : Option (List Char) → Bool
  | none => false
  | some s => !s.isEmpty

/-! ## `ngrams` (src/fuzzy_index.py lines 30-35)

`string = ' ' + string + ' '; ngrams = zip(*[string[i:] for i in range(n)])`
-/

/-- `ngrams` (src/fuzzy_index.py lines 30-35): pad with one leading and one
trailing space, then slide a window of width `n`. `zip` over the `n` shifted
copies yields `padded.length + 1 - n` windows (truncated at zero), and
`zip()` of zero iterables is empty. -/
def ngrams (string : List Char) (n : Nat := 3) : List (List Char) :=
  if n = 0 then []
  else
    let padded := [' '] ++ string ++ [' ']
    (List.range (padded.length + 1 - n)).map (fun i => (padded.drop i).take n)

/-! ## `FuzzyIndex` (src/fuzzy_index.py lines 38-99)

The TF-IDF vectorizer and the nmslib nearest-neighbor index are external
libraries; they are modelled as oracle functions. `V` is the (opaque) type
of query vectors. `search` returns `Except Unit _`: `Except.error ()` models
a raised Python exception (`AttributeError` from calling a method on
`None`). -/

structure FuzzyIndex (V : Type) where
  have_nmslib : Bool
  vectorizer : Option (List Char → V)
  index : Option (V → List (Nat × ℚ))

/-- `FuzzyIndex.__init__` (src/fuzzy_index.py lines 46-51): both the
vectorizer and the nearest-neighbor index start out as `None`. -/
def FuzzyIndex.mkNew (V : Type) (hn : Bool) : FuzzyIndex V :=
  ⟨hn, none, none⟩

/-- One element of the list returned by `FuzzyIndex.search`:
`{"confidence": fabs(conf), "id": index, "text": query_string}`. -/
structure FISearchRes where
  confidence : ℚ
  id : Nat
  text : List Char
deriving DecidableEq, Repr

/-- `FuzzyIndex.build` (src/fuzzy_index.py lines 59-81): a no-op when the
nearest-neighbor backend is unavailable; otherwise fit the vectorizer on the
lookup strings (external oracle `fit`) and build the nearest-neighbor
structure over the vectors and ids (external oracle `ann`). -/
def FuzzyIndex.build {V : Type} (self : FuzzyIndex V)
    (fit : List (List Char) → (List Char → V))
    (ann : List (List Char × Nat) → (V → List (Nat × ℚ)))
    (search_data : List (List Char × Nat)) : FuzzyIndex V :=
  if !self.have_nmslib then self
  else
    { self with
      vectorizer := some (fit (search_data.map (fun p => p.1))),
      index := some (ann search_data) }

/-- `FuzzyIndex.search` (src/fuzzy_index.py lines 83-99): return `[]` when
the backend is missing; otherwise call `self.vectorizer.transform` and
`self.index.knnQueryBatch` — each raises `AttributeError` (modelled as
`Except.error ()`) when the corresponding field is still `None` — and map
each (id, signed similarity) pair to a result whose confidence is the
absolute value of the signed similarity. There is no `min_confidence`
parameter and no filtering. -/
def FuzzyIndex.search {V : Type} (self : FuzzyIndex V) (query_string : List Char) :
    Except Unit (List FISearchRes) :=
  if !self.have_nmslib then Except.ok []
  else
    match self.vectorizer with
    | none => Except.error ()
    | some transform =>
      match self.index with
      | none => Except.error ()
      | some knn =>
        Except.ok ((knn (transform query_string)).map
          (fun p => ⟨|p.2|, p.1, query_string⟩))

/-! ## `MappingLookupSearch` (src/search_index.py)

`search_index.py` calls a `FuzzyIndex` variant whose `build` takes `(data,
key)` and whose `search` takes `(query, min_confidence)`; that variant is
not among the provided sources (the `fuzzy_index.py` provided is the older
standalone prototype, whose signatures do not match these calls). Modelled
from the spec: the index used by `MappingLookupSearch` is built once from a
list of (text, id) pairs and its `search` is an oracle returning
`{id, text, confidence}` records (spec section 4.2). An index is represented
by the (text, id) pairs it was built from; the oracle lives in the
environment record `Env` below. -/

/-- One row of the row-store for one artist
(`Mapping.select().where(Mapping.artist_credit_id == ...)`). -/
structure Row where
  recording_id : Nat
  release_id : Nat
  recording_name : Option (List Char)
  release_name : Option (List Char)
  score : Int
deriving DecidableEq, Repr

/-- One `{"id": ..., "release_id": ..., "score": ...}` record appended to
`recording_ref[encoded]` (src/search_index.py lines 70-72). -/
structure RecRef where
  id : Nat
  release_id : Nat
  score : Int
deriving DecidableEq, Repr

/-- One element of the `recording_data` list (src/search_index.py lines
91-95): a distinct normalized recording text (possibly `None` or empty — no
truthiness guard on the recording side), its position, and its group of
underlying rows. -/
structure RecGroup where
  text : Option (List Char)
  id : Nat
  recording_data : List RecRef
deriving DecidableEq, Repr

/-- One element of the `release_data` list (src/search_index.py lines
101-103): a distinct truthy normalized release text, its position, and its
(release_id, score) pairs. -/
structure RelGroup where
  text : List Char
  id : Nat
  release_id_scores : List (Nat × Int)
deriving DecidableEq, Repr

/-- The cache entry built by `load_artist` (src/search_index.py lines
122-128). The two indexes are represented by the (text, id) pairs they were
built from. -/
structure ArtistEntry where
  recording_index : List (Option (List Char) × Nat)
  recording_data : List RecGroup
  release_index : List (List Char × Nat)
  recording_releases : List (Nat × List Nat)
  release_data : List RelGroup
deriving DecidableEq, Repr

/-- The mutable state of a `MappingLookupSearch` instance: the
`self.artist_data` memoization dict, as an insertion-ordered association
list. -/
structure MLS where
  artist_data : List (Nat × ArtistEntry)
deriving DecidableEq, Repr

/-- One search result of the spec-modelled index: `{id, text, confidence}`. -/
structure IdxRes where
  confidence : ℚ
  id : Nat
  text : List Char
deriving DecidableEq, Repr

/-- The external collaborators of `MappingLookupSearch`: the row-store
(`Mapping.select().where(...)`, keyed by artist_credit_id) and the
spec-modelled index search oracles, taking the pairs the index was built
from, the (encoded) query and the min_confidence threshold. -/
structure Env where
  rows : Nat → List Row
  recSearch : List (Option (List Char) × Nat) → Option (List Char) → ℚ → List IdxRes
  relSearch : List (List Char × Nat) → Option (List Char) → ℚ → List IdxRes

/-- `defaultdict(list)` update preserving dict insertion order: append `v` to
the list at key `k`, creating the key at the end when absent. -/
def upsert {α β : Type} [DecidableEq α] (m : List (α × List β)) (k : α) (v : β) :
    List (α × List β) :=
  match m with
  | [] => [(k, [v])]
  | (k', vs) :: rest => if k' = k then (k', vs ++ [v]) :: rest else (k', vs) :: upsert rest k v

/-- The accumulators of the row loop: `recording_ref`, `recording_releases`,
and the pre-grouping `release_data` list. -/
abbrev ScanAcc :=
  List (Option (List Char) × List RecRef) × List (Nat × List Nat) × List (Nat × List Char × Int)

/-- One iteration of the `for` loop over the artist's rows
(src/search_index.py lines 68-81): group the row under its encoded recording
name (no truthiness guard), record the recording -> release cross-reference,
and append a release record only when the encoded release name is truthy. -/
def scanStep (acc : ScanAcc) (row : Row) : ScanAcc :=
  (upsert acc.1 (encode_string row.recording_name)
     ⟨row.recording_id, row.release_id, row.score⟩,
   upsert acc.2.1 row.recording_id row.release_id,
   match encode_string row.release_name with
   | none => acc.2.2
   | some encoded =>
     if encoded.isEmpty then acc.2.2
     else acc.2.2 ++ [(row.release_id, encoded, row.score)])

/-- The whole `for` loop over the artist's rows (src/search_index.py lines
68-81). -/
def scanRows (rows : List Row) : ScanAcc :=
  rows.foldl scanStep ([], [], [])

/-- `recording_data` (src/search_index.py lines 90-95): enumerate the keys of
`recording_ref` in insertion order. -/
def recordingDataOf (rows : List Row) : List RecGroup :=
  ((scanRows rows).1.enum).map (fun p => ⟨p.2.1, p.1, p.2.2⟩)

/-- `release_ref` grouping followed by the second `release_data` list
(src/search_index.py lines 97-103). -/
def releaseDataOf (rows : List Row) : List RelGroup :=
  let release_ref := (scanRows rows).2.2.foldl
    (fun m r => upsert m r.2.1 (r.1, r.2.2)) []
  (release_ref.enum).map (fun p => ⟨p.2.1, p.1, p.2.2⟩)

/-- The pure outcome of a cache miss in `load_artist` (src/search_index.py
lines 63-131): `none` when `recording_data` or `release_data` is empty
(the source returns `None` before caching anything), otherwise the entry. -/
def buildEntry (rows : List Row) : Option ArtistEntry :=
  let recording_data := recordingDataOf rows
  let release_data := releaseDataOf rows
  if recording_data.isEmpty then none
  else if release_data.isEmpty then none
  else some
    { recording_index := recording_data.map (fun g => (g.text, g.id)),
      recording_data := recording_data,
      release_index := release_data.map (fun g => (g.text, g.id)),
      recording_releases := (scanRows rows).2.1,
      release_data := release_data }

/-- Dict lookup in `self.artist_data`. -/
def lookupAC (st : MLS) (artist_credit_id : Nat) : Option ArtistEntry :=
  List.lookup artist_credit_id st.artist_data

/-- `MappingLookupSearch.load_artist` (src/search_index.py lines 54-131).
Returns (result, new state, whether the row-store was queried). A cache hit
returns the memoized entry without a query; a miss queries the row-store,
returns `None` without touching the cache when either index would be empty,
and memoizes only a successfully built entry. -/
def load_artist (env : Env) (st : MLS) (artist_credit_id : Nat) :
    Option ArtistEntry × MLS × Bool :=
  match lookupAC st artist_credit_id with
  | some entry => (some entry, st, false)
  | none =>
    match buildEntry (env.rows artist_credit_id) with
    | none => (none, st, true)
    | some entry => (some entry, ⟨st.artist_data ++ [(artist_credit_id, entry)]⟩, true)

/-! ### `MappingLookupSearch.search` (src/search_index.py lines 133-245) -/

/-- `RECORDING_CONFIDENCE` (src/search_index.py line 20). -/
def RECORDING_CONFIDENCE : ℚ := 1/2

/-- `RELEASE_CONFIDENCE` (src/search_index.py line 19). -/
def RELEASE_CONFIDENCE : ℚ := 1/2

/-- An expanded recording candidate (src/search_index.py lines 157-164). -/
structure RecExp where
  text : List Char
  confidence : ℚ
  id : Nat
  score : Int
  release_id : Nat
deriving DecidableEq, Repr

/-- An expanded release candidate (src/search_index.py lines 186-192). -/
structure RelExp where
  text : List Char
  confidence : ℚ
  id : Nat
  score : Int
deriving DecidableEq, Repr

/-- A combined hit (src/search_index.py lines 215-222). -/
structure Hit where
  recording_id : Nat
  recording_text : List Char
  recording_conf : ℚ
  score : Int
  release_id : Nat
  release_name : List Char
  release_conf : ℚ
  confidence : ℚ
deriving DecidableEq, Repr

/-- The sort key `lambda r: (-r["confidence"], r["score"])` as a total
boolean preorder: higher confidence first, ties by ascending score. -/
def expLe (c1 : ℚ) (s1 : Int) (c2 : ℚ) (s2 : Int) : Bool :=
  decide (c2 < c1) || (decide (c1 = c2) && decide (s1 ≤ s2))

def recLe (a b : RecExp) : Bool := expLe a.confidence a.score b.confidence b.score

def relLe (a b : RelExp) : Bool := expLe a.confidence a.score b.confidence b.score

/-- Default group used to model Python list indexing: index search results
index into `recording_data` / `release_data` by position, and the ids the
spec-modelled index returns are the positions supplied at build time, so
the default is never reached for results produced by a real backend. -/
def dfltRecGroup : RecGroup := ⟨none, 0, []⟩

def dfltRelGroup : RelGroup := ⟨[], 0, []⟩

/-- Expansion of the raw recording-index results (src/search_index.py lines
156-164): each index hit maps to a group of underlying rows, each of which
becomes one candidate. -/
def expandRec (e : ArtistEntry) (res : List IdxRes) : List RecExp :=
  res.flatMap (fun r =>
    ((e.recording_data.getD r.id dfltRecGroup).recording_data).map
      (fun d => ⟨r.text, r.confidence, d.id, d.score, d.release_id⟩))

/-- Expansion of the raw release-index results (src/search_index.py lines
185-192). -/
def expandRel (e : ArtistEntry) (res : List IdxRes) : List RelExp :=
  res.flatMap (fun r =>
    ((e.release_data.getD r.id dfltRelGroup).release_id_scores).map
      (fun d => ⟨r.text, r.confidence, d.1, d.2⟩))

/-- Insertion step of a stable sort: insert `a` before the first element `b`
with `le a b` (so an element never jumps ahead of an equal one that came
earlier). -/
def insertLe {α : Type} (le : α → α → Bool) (a : α) : List α → List α
  | [] => [a]
  | b :: l => if le a b then a :: b :: l else b :: insertLe le a l

/-- Python's `sorted` is a stable sort by the given key; a stable insertion
sort with respect to the same total preorder computes the same list. -/
def pySorted {α : Type} (le : α → α → Bool) : List α → List α
  | [] => []
  | a :: l => insertLe le a (pySorted le l)

/-- The sorted recording candidates of one artist (src/search_index.py lines
155-166). -/
def recResults (env : Env) (e : ArtistEntry) (recording_name : Option (List Char)) :
    List RecExp :=
  pySorted recLe (expandRec e (env.recSearch e.recording_index recording_name RECORDING_CONFIDENCE))

/-- The sorted release candidates of one artist (src/search_index.py lines
184-194). -/
def relResults (env : Env) (e : ArtistEntry) (release_name : Option (List Char)) :
    List RelExp :=
  pySorted relLe (expandRel e (env.relSearch e.release_index release_name RELEASE_CONFIDENCE))

/-- `rec_res["id"] in artist_data["recording_releases"]` (src/search_index.py
line 214): key membership, the consistency filter on combined pairs. -/
def inRecRel (e : ArtistEntry) (rid : Nat) : Bool :=
  (List.lookup rid e.recording_releases).isSome

/-- One combined hit (src/search_index.py lines 215-222): combined confidence
is the arithmetic mean of the two stage confidences. -/
def mkHit (a : RecExp) (b : RelExp) : Hit :=
  ⟨a.id, a.text, a.confidence, a.score, b.id, b.text, b.confidence,
    (a.confidence + b.confidence) / 2⟩

/-- The `hits` list (src/search_index.py lines 207-222): top 3 recording
candidates crossed with top 3 release candidates, keeping a pair only when
the recording id appears in the `recording_releases` cross-reference. -/
def mkHits (e : ArtistEntry) (recs : List RecExp) (rels : List RelExp) : List Hit :=
  (recs.take 3).flatMap (fun a =>
    (rels.take 3).flatMap (fun b =>
      if inRecRel e a.id then [mkHit a b] else []))

/-- The encoded fields of a request (src/search_index.py lines 135-138). -/
structure EncReq where
  id : Nat
  release_name : Option (List Char)
  recording_name : Option (List Char)
deriving DecidableEq, Repr

/-- A result tuple `(release_id, recording_id, confidence, request id)`. -/
abbrev OutTuple := Nat × Nat × ℚ × Nat

/-- The combined hits computed for one artist entry on one request. -/
def artistHits (env : Env) (rq : EncReq) (e : ArtistEntry) : List Hit :=
  mkHits e (recResults env e rq.recording_name) (relResults env e rq.release_name)

/-- The per-artist body of the search loop (src/search_index.py lines
155-245): `none` models falling through to the next candidate artist
(`continue`), `some` models a `return` from `search`. -/
def artistStep (env : Env) (rq : EncReq) (e : ArtistEntry) : Option (List OutTuple) :=
  let rec_results := recResults env e rq.recording_name
  if !truthy rq.release_name then
    if rec_results.isEmpty then none
    else some ((rec_results.take 3).map (fun r => (r.release_id, r.id, r.confidence, rq.id)))
  else
    let hits := artistHits env rq e
    match hits with
    | [] => none
    | h :: _ => some [(h.release_id, h.recording_id, h.confidence, rq.id)]

/-- The `for artist_id in artist_ids` loop (src/search_index.py lines
149-245), threading the memoization cache. The final `none` models the
source falling off the end of the function, i.e. Python returning `None`. -/
def searchLoop (env : Env) (rq : EncReq) : List Nat → MLS → Option (List OutTuple) × MLS
  | [], st => (none, st)
  | artist_id :: rest, st =>
    match load_artist env st artist_id with
    | (none, st', _) => searchLoop env rq rest st'
    | (some e, st', _) =>
      match artistStep env rq e with
      | none => searchLoop env rq rest st'
      | some out => (some out, st')

/-- `MappingLookupSearch.search` (src/search_index.py lines 133-245): encode
the request's names, then run the candidate-artist loop. The first
component is `some results` when a `return` statement runs and `none` when
control falls off the end of the function (Python `None`). -/
structure SearchReq where
  id : Nat
  artist_ids : List Nat
  artist_name : Option (List Char)
  release_name : Option (List Char)
  recording_name : Option (List Char)
deriving DecidableEq, Repr

/-- The encoding step at the top of `search` (src/search_index.py lines
135-138). -/
def encReq (req : SearchReq) : EncReq :=
  ⟨req.id, encode_string req.release_name, encode_string req.recording_name⟩

namespace MappingLookupSearch

def search (env : Env) (st : MLS) (req : SearchReq) : Option (List OutTuple) × MLS :=
  searchLoop env (encReq req) req.artist_ids st

end MappingLookupSearch

/-- The first hit attaining the greatest combined confidence, in the order
the recording x release pairings are enumerated (the claim's designated
winner). -/
def firstBestHit (hits : List Hit) : Hit :=
  (hits.find? (fun h => hits.all (fun h' => decide (h'.confidence ≤ h.confidence)))).getD
    ⟨0, [], 0, 0, 0, [], 0, 0⟩

/-! ## `mapping_lookup_process` (src/search_process.py lines 9-20) -/

/-- A queue message: either an ordinary search request or the distinguished
exit request (`"exit" in req`). -/
structure WReq where
  isExit : Bool
  req : SearchReq
deriving DecidableEq, Repr

/-- `mapping_lookup_process` (src/search_process.py lines 9-20) on a finite
inbound queue: pull a request, return immediately on the exit sentinel
(writing nothing), otherwise run the search, write `(request id, result)`
to the output store, and loop. The worker starts with a fresh
`MappingLookupSearch` state. -/
def mapping_lookup_process (env : Env) :
    List WReq → MLS → List (Nat × Option (List OutTuple))
  | [], _ => []
  | r :: rest, st =>
    if r.isExit then []
    else
      match MappingLookupSearch.search env st r.req with
      | (ret, st') => (r.req.id, ret) :: mapping_lookup_process env rest st'

/-- The observable phases of a shard worker: blocked on the queue, executing
one request, or stopped for good. -/
inductive WPhase where
  | ready : WPhase
  | processing : Nat → WPhase
  | stopped : WPhase
deriving DecidableEq, Repr

/-- The phase trace of the worker loop on a finite inbound queue: ready at
the top of each iteration, processing while a request executes, stopped
forever once the exit sentinel is read. -/
def workerTrace : List WReq → List WPhase
  | [] => [WPhase.ready]
  | r :: rest =>
    if r.isExit then [WPhase.ready, WPhase.stopped]
    else WPhase.ready :: WPhase.processing r.req.id :: workerTrace rest

/-! ## General lemmas -/

def lowerAlphabet : List Char :=
  ['a','b','c','d','e','f','g','h','i','j','k','l','m','n','o','p','q','r','s','t','u','v','w','x','y','z']

theorem lowerChar_cases (c : Char) : lowerChar c = c ∨ lowerChar c ∈ lowerAlphabet := by
  unfold lowerChar
  split
  all_goals first | (left; rfl) | (right; decide)

theorem lowerChar_fix_of_mem : ∀ d ∈ lowerAlphabet, lowerChar d = d := by decide

theorem lowerChar_idem (c : Char) : lowerChar (lowerChar c) = lowerChar c := by
  rcases lowerChar_cases c with h | h
  · rw [h]; exact h
  · exact lowerChar_fix_of_mem _ h

theorem lowerChar_word (c : Char) (h : isWordChar c = true) : isWordChar (lowerChar c) = true := by
  rcases lowerChar_cases c with h' | h'
  · rw [h']; exact h
  · exact (by decide : ∀ d ∈ lowerAlphabet, isWordChar d = true) _ h'

theorem lowerChar_ascii (c : Char) (h : c.val < 0x80) : (lowerChar c).val < 0x80 := by
  rcases lowerChar_cases c with h' | h'
  · rw [h']; exact h
  · exact (by decide : ∀ d ∈ lowerAlphabet, d.val < 0x80) _ h'

theorem lowerChar_ne_space (c : Char) (h : ¬(c = ' ')) : ¬(lowerChar c = ' ') := by
  rcases lowerChar_cases c with h' | h'
  · rw [h']; exact h
  · exact (by decide : ∀ d ∈ lowerAlphabet, ¬(d = ' ')) _ h'

theorem expLe_trans (c1 c2 c3 : ℚ) (s1 s2 s3 : Int)
    (h1 : expLe c1 s1 c2 s2 = true) (h2 : expLe c2 s2 c3 s3 = true) :
    expLe c1 s1 c3 s3 = true := by
  simp only [expLe, Bool.or_eq_true, Bool.and_eq_true, decide_eq_true_eq] at *
  rcases h1 with h1 | ⟨h1, h1'⟩ <;> rcases h2 with h2 | ⟨h2, h2'⟩
  · left; linarith
  · left; linarith
  · left; linarith
  · right; exact ⟨h1.trans h2, le_trans h1' h2'⟩

theorem expLe_total (c1 c2 : ℚ) (s1 s2 : Int) :
    (expLe c1 s1 c2 s2 || expLe c2 s2 c1 s1) = true := by
  simp only [expLe, Bool.or_eq_true, Bool.and_eq_true, decide_eq_true_eq]
  rcases lt_trichotomy c1 c2 with h | h | h
  · tauto
  · subst h
    rcases le_total s1 s2 with hs | hs <;> tauto
  · tauto

theorem expLe_conf (c1 c2 : ℚ) (s1 s2 : Int) (h : expLe c1 s1 c2 s2 = true) : c2 ≤ c1 := by
  simp only [expLe, Bool.or_eq_true, Bool.and_eq_true, decide_eq_true_eq] at h
  rcases h with h | ⟨h, _⟩ <;> linarith

theorem mem_insertLe {α : Type} (le : α → α → Bool) (a x : α) :
    ∀ l : List α, x ∈ insertLe le a l → x = a ∨ x ∈ l := by
  intro l
  induction l with
  | nil =>
    intro h
    unfold insertLe at h
    simp at h
    exact Or.inl h
  | cons b t ih =>
    intro h
    unfold insertLe at h
    by_cases hab : le a b = true
    · rw [if_pos hab] at h
      rcases List.mem_cons.mp h with rfl | h2
      · exact Or.inl rfl
      · exact Or.inr h2
    · rw [if_neg hab] at h
      rcases List.mem_cons.mp h with rfl | h2
      · exact Or.inr (List.mem_cons_self _ _)
      · rcases ih h2 with rfl | h3
        · exact Or.inl rfl
        · exact Or.inr (List.mem_cons_of_mem _ h3)

theorem pairwise_insertLe {α : Type} (le : α → α → Bool)
    (trans : ∀ x y z, le x y = true → le y z = true → le x z = true)
    (total : ∀ x y, (le x y || le y x) = true)
    (a : α) (l : List α) (h : l.Pairwise (fun x y => le x y = true)) :
    (insertLe le a l).Pairwise (fun x y => le x y = true) := by
  induction l with
  | nil => simp [insertLe]
  | cons b t ih =>
    rcases List.pairwise_cons.mp h with ⟨hb, ht⟩
    unfold insertLe
    by_cases hab : le a b = true
    · rw [if_pos hab]
      refine List.pairwise_cons.mpr ⟨?_, h⟩
      intro y hy
      rcases List.mem_cons.mp hy with rfl | hy
      · exact hab
      · exact trans _ _ _ hab (hb y hy)
    · rw [if_neg hab]
      have hba : le b a = true := by
        rcases (by simpa using total a b : le a b = true ∨ le b a = true) with h1 | h1
        · exact absurd h1 hab
        · exact h1
      refine List.pairwise_cons.mpr ⟨?_, ih ht⟩
      intro y hy
      rcases mem_insertLe le a y t hy with rfl | hy2
      · exact hba
      · exact hb y hy2

theorem pySorted_pairwise {α : Type} (le : α → α → Bool)
    (trans : ∀ x y z, le x y = true → le y z = true → le x z = true)
    (total : ∀ x y, (le x y || le y x) = true)
    (l : List α) : (pySorted le l).Pairwise (fun x y => le x y = true) := by
  induction l with
  | nil => simp [pySorted]
  | cons a t ih => exact pairwise_insertLe le trans total a _ ih

/-- The `sorted(..., key=lambda r: (-confidence, score))` call yields a list
that is pairwise ordered by descending confidence with ascending-score
tie-break. -/
theorem recResults_pairwise (env : Env) (e : ArtistEntry) (nm : Option (List Char)) :
    (recResults env e nm).Pairwise (fun a b => recLe a b = true) := by
  apply pySorted_pairwise
  · intro a b c hab hbc; exact expLe_trans _ _ _ _ _ _ hab hbc
  · intro a b; exact expLe_total _ _ _ _

theorem relResults_pairwise (env : Env) (e : ArtistEntry) (nm : Option (List Char)) :
    (relResults env e nm).Pairwise (fun a b => relLe a b = true) := by
  apply pySorted_pairwise
  · intro a b c hab hbc; exact expLe_trans _ _ _ _ _ _ hab hbc
  · intro a b; exact expLe_total _ _ _ _

theorem flatMap_if_const {α β : Type} (l : List α) (p : Bool) (f : α → β) :
    (l.flatMap (fun b => if p then [f b] else [])) = if p then l.map f else [] := by
  cases p <;> induction l <;> simp_all

theorem flatMap_nil_fun {α β : Type} (l : List α) :
    (l.flatMap fun _ => ([] : List β)) = [] := by
  induction l <;> simp_all

theorem mkHits_eq_filter (e : ArtistEntry) (recs : List RecExp) (rels : List RelExp) :
    mkHits e recs rels =
      ((recs.take 3).filter (fun a => inRecRel e a.id)).flatMap
        (fun a => (rels.take 3).map (mkHit a)) := by
  unfold mkHits
  induction recs.take 3 with
  | nil => simp
  | cons a l ih =>
    rw [List.flatMap_cons, List.filter_cons, ih, flatMap_if_const]
    cases hp : inRecRel e a.id <;> simp [hp]

/-- The first element of the `hits` list attains the maximal combined
confidence: the recording and release candidate lists are each sorted by
descending confidence, the cross-reference filter looks only at the
recording side, and the combined confidence is the mean of the two sides. -/
theorem hits_head_max (e : ArtistEntry) (recs : List RecExp) (rels : List RelExp)
    (hr : recs.Pairwise (fun a b => recLe a b = true))
    (hl : rels.Pairwise (fun a b => relLe a b = true))
    (h0 : Hit) (t : List Hit) (heq : mkHits e recs rels = h0 :: t) :
    ∀ h ∈ mkHits e recs rels, h.confidence ≤ h0.confidence := by
  rw [mkHits_eq_filter] at heq ⊢
  have hrF : ((recs.take 3).filter (fun a => inRecRel e a.id)).Pairwise
      (fun a b => recLe a b = true) :=
    hr.sublist ((List.filter_sublist _).trans (List.take_sublist 3 recs))
  have hlT : (rels.take 3).Pairwise (fun a b => relLe a b = true) :=
    hl.sublist (List.take_sublist 3 rels)
  rcases hF : (recs.take 3).filter (fun a => inRecRel e a.id) with _ | ⟨a0, F⟩
  · rw [hF] at heq; simp at heq
  · rcases hR : rels.take 3 with _ | ⟨b0, R⟩
    · simp only [hF, hR, List.map_nil, flatMap_nil_fun] at heq
      exact List.noConfusion heq
    · simp only [hF, hR] at heq hrF hlT ⊢
      have hh0 : h0 = mkHit a0 b0 := by
        simp only [List.flatMap_cons, List.map_cons, List.cons_append] at heq
        exact (List.cons_eq_cons.mp heq).1.symm
      intro h hmem
      rcases List.mem_flatMap.mp hmem with ⟨a, ha, hmap⟩
      rcases List.mem_map.mp hmap with ⟨b, hb, rfl⟩
      have hac : a.confidence ≤ a0.confidence := by
        rcases List.mem_cons.mp ha with rfl | h'
        · exact le_refl _
        · exact expLe_conf _ _ _ _ ((List.pairwise_cons.mp hrF).1 a h')
      have hbc : b.confidence ≤ b0.confidence := by
        rcases List.mem_cons.mp hb with rfl | h'
        · exact le_refl _
        · exact expLe_conf _ _ _ _ ((List.pairwise_cons.mp hlT).1 b h')
      rw [hh0]
      show (a.confidence + b.confidence) / 2 ≤ (a0.confidence + b0.confidence) / 2
      linarith

theorem firstBestHit_eq_head (h0 : Hit) (t : List Hit)
    (hmax : ∀ h ∈ h0 :: t, h.confidence ≤ h0.confidence) :
    firstBestHit (h0 :: t) = h0 := by
  unfold firstBestHit
  have hp : ((h0 :: t).all (fun h' => decide (h'.confidence ≤ h0.confidence))) = true := by
    rw [List.all_eq_true]
    intro h' hmem
    exact decide_eq_true (hmax h' hmem)
  simp only [List.find?_cons, hp]
  rfl

theorem searchLoop_append (env : Env) (rq : EncReq) (l1 l2 : List Nat) (st st' : MLS)
    (h : searchLoop env rq l1 st = (none, st')) :
    searchLoop env rq (l1 ++ l2) st = searchLoop env rq l2 st' := by
  induction l1 generalizing st with
  | nil =>
    simp only [searchLoop] at h
    cases h
    rfl
  | cons a l ih =>
    simp only [searchLoop, List.cons_append] at h ⊢
    rcases hla : load_artist env st a with ⟨r, st2, q⟩
    rw [hla] at h
    cases r with
    | none =>
      dsimp only at h ⊢
      exact ih _ h
    | some e =>
      dsimp only at h ⊢
      cases hstep : artistStep env rq e with
      | none =>
        rw [hstep] at h
        dsimp only at h ⊢
        exact ih _ h
      | some out =>
        rw [hstep] at h
        dsimp only at h
        simp at h

theorem searchLoop_found (env : Env) (rq : EncReq) (a : Nat) (rest : List Nat)
    (st st' : MLS) (q : Bool) (e : ArtistEntry) (out : List OutTuple)
    (hload : load_artist env st a = (some e, st', q))
    (hstep : artistStep env rq e = some out) :
    searchLoop env rq (a :: rest) st = (some out, st') := by
  simp only [searchLoop, hload, hstep]

theorem lookup_mem {l : List (Nat × ArtistEntry)} {a : Nat} {e : ArtistEntry}
    (h : List.lookup a l = some e) : (a, e) ∈ l := by
  induction l with
  | nil => simp [List.lookup] at h
  | cons p tl ih =>
    rcases p with ⟨k, v⟩
    by_cases hk : a = k
    · subst hk
      simp [List.lookup] at h
      subst h
      exact List.mem_cons_self _ _
    · have hbeq : (a == k) = false := by simpa using hk
      simp only [List.lookup_cons, hbeq] at h
      exact List.mem_cons_of_mem _ (ih h)

theorem lookup_append_singleton {l : List (Nat × ArtistEntry)} {a : Nat} {e : ArtistEntry}
    (h : List.lookup a l = none) : List.lookup a (l ++ [(a, e)]) = some e := by
  induction l with
  | nil => simp [List.lookup]
  | cons p tl ih =>
    rcases p with ⟨k, v⟩
    by_cases hk : a = k
    · subst hk; simp [List.lookup] at h
    · have hbeq : (a == k) = false := by simpa using hk
      simp only [List.lookup_cons, hbeq] at h
      rw [List.cons_append, List.lookup_cons]
      simp only [hbeq]
      exact ih h

theorem searchLoop_cons_notfound (env : Env) (rq : EncReq) (a : Nat) (rest : List Nat)
    (st st2 : MLS) (q : Bool) (h : load_artist env st a = (none, st2, q)) :
    searchLoop env rq (a :: rest) st = searchLoop env rq rest st2 := by
  simp only [searchLoop, h]

theorem searchLoop_cons_nostep (env : Env) (rq : EncReq) (a : Nat) (rest : List Nat)
    (st st2 : MLS) (q : Bool) (e : ArtistEntry)
    (h : load_artist env st a = (some e, st2, q)) (h2 : artistStep env rq e = none) :
    searchLoop env rq (a :: rest) st = searchLoop env rq rest st2 := by
  simp only [searchLoop, h, h2]

/-- Per-artist exhaustion: the artist is NotFound on this shard
(`buildEntry` yields nothing), or its entry produces no recording candidates
(releaseless request) resp. no combined hits (release request), so the loop
falls through to the next candidate. -/
def exhausted (env : Env) (rq : EncReq) (a : Nat) : Prop :=
  buildEntry (env.rows a) = none ∨
  ∃ e, buildEntry (env.rows a) = some e ∧ artistStep env rq e = none

theorem load_artist_hit (env : Env) (st : MLS) (a : Nat) (e : ArtistEntry)
    (h : lookupAC st a = some e) : load_artist env st a = (some e, st, false) := by
  simp only [load_artist, h]

theorem load_artist_miss_none (env : Env) (st : MLS) (a : Nat)
    (h : lookupAC st a = none) (hb : buildEntry (env.rows a) = none) :
    load_artist env st a = (none, st, true) := by
  simp only [load_artist, h, hb]

theorem load_artist_miss_some (env : Env) (st : MLS) (a : Nat) (e : ArtistEntry)
    (h : lookupAC st a = none) (hb : buildEntry (env.rows a) = some e) :
    load_artist env st a = (some e, ⟨st.artist_data ++ [(a, e)]⟩, true) := by
  simp only [load_artist, h, hb]

/-- When every candidate artist is exhausted, the loop falls off the end,
i.e. the Python function returns `None`. The cache is only assumed
consistent with the row-store (which `load_artist` maintains). -/
theorem searchLoop_none_of_exhausted (env : Env) (rq : EncReq) (ids : List Nat) :
    ∀ st : MLS, (∀ p ∈ st.artist_data, buildEntry (env.rows p.1) = some p.2) →
    (∀ a ∈ ids, exhausted env rq a) →
    (searchLoop env rq ids st).1 = none := by
  induction ids with
  | nil => intro st _ _; rfl
  | cons a l ih =>
    intro st hc hex
    have hexa := hex a (List.mem_cons_self a l)
    cases hl : lookupAC st a with
    | some e =>
      have hbe : buildEntry (env.rows a) = some e := hc (a, e) (lookup_mem hl)
      rcases hexa with hnone | ⟨e2, he2, hstep⟩
      · rw [hbe] at hnone; cases hnone
      · rw [hbe] at he2
        injection he2 with heq
        subst heq
        rw [searchLoop_cons_nostep env rq a l st st false e (load_artist_hit env st a e hl) hstep]
        exact ih st hc (fun b hb => hex b (List.mem_cons_of_mem a hb))
    | none =>
      cases hb : buildEntry (env.rows a) with
      | none =>
        rw [searchLoop_cons_notfound env rq a l st st true (load_artist_miss_none env st a hl hb)]
        exact ih st hc (fun b hbm => hex b (List.mem_cons_of_mem a hbm))
      | some e =>
        rcases hexa with hnone | ⟨e2, he2, hstep⟩
        · rw [hb] at hnone; cases hnone
        · rw [hb] at he2
          injection he2 with heq
          subst heq
          rw [searchLoop_cons_nostep env rq a l st ⟨st.artist_data ++ [(a, e)]⟩ true e
            (load_artist_miss_some env st a e hl hb) hstep]
          apply ih
          · intro p hp
            rcases List.mem_append.mp hp with hp | hp
            · exact hc p hp
            · rcases List.mem_singleton.mp hp with rfl
              exact hb
          · exact fun b hbm => hex b (List.mem_cons_of_mem a hbm)

/-- The all-candidates-exhausted outcome of `MappingLookupSearch.search`:
the first component is `none`, modelling Python returning `None` (the
function body has no `return` after the loop). -/
theorem search_none_of_all_exhausted (env : Env) (st : MLS) (req : SearchReq)
    (hc : ∀ p ∈ st.artist_data, buildEntry (env.rows p.1) = some p.2)
    (hex : ∀ a ∈ req.artist_ids, exhausted env (encReq req) a) :
    (MappingLookupSearch.search env st req).1 = none :=
  searchLoop_none_of_exhausted env (encReq req) req.artist_ids st hc hex

theorem upsert_ne_nil {α β : Type} [DecidableEq α] (m : List (α × List β)) (k : α) (v : β) :
    upsert m k v ≠ [] := by
  cases m with
  | nil => simp [upsert]
  | cons p rest =>
    rcases p with ⟨k', vs⟩
    unfold upsert
    split <;> simp

theorem upsert_key_mem {α β : Type} [DecidableEq α] (m : List (α × List β)) (k : α) (v : β) :
    k ∈ (upsert m k v).map Prod.fst := by
  induction m with
  | nil => simp [upsert]
  | cons p rest ih =>
    rcases p with ⟨k', vs⟩
    unfold upsert
    split
    · simp_all
    · simp only [List.map_cons]
      exact List.mem_cons_of_mem _ ih

theorem upsert_key_preserved {α β : Type} [DecidableEq α] (m : List (α × List β))
    (k k2 : α) (v : β) (h : k2 ∈ m.map Prod.fst) : k2 ∈ (upsert m k v).map Prod.fst := by
  induction m with
  | nil => simp at h
  | cons p rest ih =>
    rcases p with ⟨k', vs⟩
    unfold upsert
    split
    · simpa using h
    · simp only [List.map_cons] at h ⊢
      rcases List.mem_cons.mp h with rfl | h
      · exact List.mem_cons_self _ _
      · exact List.mem_cons_of_mem _ (ih h)

/-! ### Lemmas about the row scan (for the `load_artist` claims) -/

theorem foldl_scanStep_first_ne_nil (rows : List Row) :
    ∀ acc : ScanAcc, acc.1 ≠ [] → (rows.foldl scanStep acc).1 ≠ [] := by
  induction rows with
  | nil => exact fun acc h => h
  | cons r rs ih =>
    intro acc _
    exact ih (scanStep acc r) (upsert_ne_nil _ _ _)

theorem scanRows_first_ne_nil (rows : List Row) (h : rows ≠ []) :
    (scanRows rows).1 ≠ [] := by
  cases rows with
  | nil => exact absurd rfl h
  | cons r rs =>
    show ((r :: rs).foldl scanStep ([], [], [])).1 ≠ []
    rw [List.foldl_cons]
    exact foldl_scanStep_first_ne_nil rs _ (upsert_ne_nil _ _ _)

theorem foldl_scanStep_third_const (rows : List Row)
    (h : ∀ r ∈ rows, truthy (encode_string r.release_name) = false) :
    ∀ acc : ScanAcc, (rows.foldl scanStep acc).2.2 = acc.2.2 := by
  induction rows with
  | nil => exact fun acc => rfl
  | cons r rs ih =>
    intro acc
    rw [List.foldl_cons]
    rw [ih (fun x hx => h x (List.mem_cons_of_mem r hx))]
    have hr := h r (List.mem_cons_self r rs)
    show (match encode_string r.release_name with
      | none => acc.2.2
      | some encoded =>
        if encoded.isEmpty then acc.2.2
        else acc.2.2 ++ [(r.release_id, encoded, r.score)]) = acc.2.2
    cases he : encode_string r.release_name with
    | none => rfl
    | some s =>
      rw [he] at hr
      have hs : s.isEmpty = true := by
        revert hr
        cases hempty : s.isEmpty <;> simp [truthy, hempty]
      simp [hs]

theorem foldl_scanStep_key_preserved (rows : List Row) :
    ∀ acc : ScanAcc, ∀ k, k ∈ acc.1.map Prod.fst →
      k ∈ ((rows.foldl scanStep acc).1).map Prod.fst := by
  induction rows with
  | nil => exact fun acc k h => h
  | cons r rs ih =>
    intro acc k h
    rw [List.foldl_cons]
    exact ih (scanStep acc r) k (upsert_key_preserved _ _ _ _ h)

theorem foldl_scanStep_first_key (rows : List Row) :
    ∀ acc : ScanAcc, ∀ r ∈ rows,
      encode_string r.recording_name ∈ ((rows.foldl scanStep acc).1).map Prod.fst := by
  induction rows with
  | nil => intro acc r h; simp at h
  | cons r0 rs ih =>
    intro acc r hmem
    rw [List.foldl_cons]
    rcases List.mem_cons.mp hmem with rfl | h
    · exact foldl_scanStep_key_preserved rs (scanStep acc r) _ (upsert_key_mem _ _ _)
    · exact ih (scanStep acc r0) r h

theorem exists_group (m : List (Option (List Char) × List RecRef)) :
    ∀ n : Nat, ∀ k, k ∈ m.map Prod.fst →
      ∃ g ∈ (m.enumFrom n).map (fun p => (⟨p.2.1, p.1, p.2.2⟩ : RecGroup)), g.text = k := by
  induction m with
  | nil => intro n k h; simp at h
  | cons p tl ih =>
    intro n k h
    rcases p with ⟨k0, vs⟩
    rcases List.mem_cons.mp h with rfl | h
    · exact ⟨⟨k, n, vs⟩, by simp, rfl⟩
    · rcases ih (n + 1) k h with ⟨g, hg, hid⟩
      exact ⟨g, by simp only [List.enumFrom_cons, List.map_cons]; exact List.mem_cons_of_mem _ hg, hid⟩

/-- Every row's encoded recording name — even `None` or the empty string —
ends up as the text of some recording group. -/
theorem recordingDataOf_text (rows : List Row) (r : Row) (hmem : r ∈ rows) :
    ∃ g ∈ recordingDataOf rows, g.text = encode_string r.recording_name := by
  unfold recordingDataOf
  have hkey : encode_string r.recording_name ∈ ((scanRows rows).1).map Prod.fst :=
    foldl_scanStep_first_key rows ([], [], []) r hmem
  exact exists_group (scanRows rows).1 0 _ hkey

theorem recordingDataOf_ne_nil (rows : List Row) (h : rows ≠ []) :
    recordingDataOf rows ≠ [] := by
  unfold recordingDataOf
  intro habs
  apply scanRows_first_ne_nil rows h
  have := congrArg List.length habs
  simp only [List.length_map, List.enum_length, List.length_nil] at this
  exact List.length_eq_zero.mp this

theorem releaseDataOf_nil (rows : List Row)
    (h : ∀ r ∈ rows, truthy (encode_string r.release_name) = false) :
    releaseDataOf rows = [] := by
  unfold releaseDataOf
  rw [show (scanRows rows).2.2 = ([] : List (Nat × List Char × Int)) from
    foldl_scanStep_third_const rows h ([], [], [])]
  rfl

theorem buildEntry_none_of_empty_releases (rows : List Row) (h1 : rows ≠ [])
    (h2 : ∀ r ∈ rows, truthy (encode_string r.release_name) = false) :
    buildEntry rows = none := by
  unfold buildEntry
  rw [if_neg (by simpa using recordingDataOf_ne_nil rows h1)]
  rw [if_pos (by simp [releaseDataOf_nil rows h2])]

/-! ### Lemmas about the normalizer (for the idempotence claim) -/

/-- Characters that every normalization stage maps to themselves. -/
def CleanChar (c : Char) : Prop :=
  isWordChar c = true ∧ ¬(c = ' ') ∧ lowerChar c = c ∧ c.val < 0x80

theorem word_not_pySpace (c : Char) (hw : isWordChar c = true) (hs : ¬(c = ' ')) :
    pyIsSpace c = false := by
  cases hsp : pyIsSpace c
  · rfl
  · exfalso
    have hd := hsp
    simp only [pyIsSpace, Bool.or_eq_true, decide_eq_true_eq] at hd
    rcases hd with ((((rfl | rfl) | rfl) | rfl) | rfl) | rfl
    · exact hs rfl
    all_goals exact absurd hw (by decide)

theorem dropWhile_eq_self_of {α : Type} (p : α → Bool) (l : List α)
    (h : ∀ c ∈ l, p c = false) : l.dropWhile p = l := by
  cases l with
  | nil => rfl
  | cons a tl => simp [List.dropWhile_cons, h a (List.mem_cons_self a tl)]

theorem mem_pyStrip {c : Char} {s : List Char} (h : c ∈ pyStrip s) : c ∈ s := by
  unfold pyStrip at h
  rw [List.mem_reverse] at h
  have h2 : c ∈ (s.dropWhile pyIsSpace).reverse := (List.dropWhile_sublist _).subset h
  rw [List.mem_reverse] at h2
  exact (List.dropWhile_sublist _).subset h2

theorem pyStrip_eq_self (s : List Char) (h : ∀ c ∈ s, pyIsSpace c = false) :
    pyStrip s = s := by
  unfold pyStrip
  rw [dropWhile_eq_self_of _ s h]
  rw [dropWhile_eq_self_of _ s.reverse (fun c hc => h c (List.mem_reverse.mp hc))]
  exact List.reverse_reverse s

theorem map_eq_self_of {α : Type} (f : α → α) (l : List α) (h : ∀ c ∈ l, f c = c) :
    l.map f = l := by
  induction l with
  | nil => rfl
  | cons a tl ih =>
    simp [h a (List.mem_cons_self a tl), ih (fun c hc => h c (List.mem_cons_of_mem a hc))]

theorem unidecodeStr_ascii (s : List Char) (h : ∀ c ∈ s, c.val < 0x80) :
    unidecodeStr s = s := by
  induction s with
  | nil => rfl
  | cons a tl ih =>
    unfold unidecodeStr
    simp only [List.map_cons, List.flatten_cons]
    rw [show unidecodeChar a = [a] from by
      simp [unidecodeChar, h a (List.mem_cons_self a tl)]]
    rw [show (List.map unidecodeChar tl).flatten = unidecodeStr tl from rfl]
    rw [ih (fun c hc => h c (List.mem_cons_of_mem a hc))]
    rfl

/-- On an all-ASCII input every character surviving the filtering stages is
a word character, not a space, fixed by lower-casing, and ASCII, so every
later stage leaves it alone. -/
theorem pipeline_chars_clean (s : List Char) (hascii : ∀ c ∈ s, c.val < 0x80) :
    ∀ x ∈ pyLower (pyStrip (removeSpaces (keepWordSpace s))), CleanChar x := by
  intro x hx
  rcases List.mem_map.mp hx with ⟨c, hc, rfl⟩
  have hc2 : c ∈ removeSpaces (keepWordSpace s) := mem_pyStrip hc
  have hc3 := List.mem_filter.mp hc2
  have hns : ¬(c = ' ') := by simpa using hc3.2
  have hc4 := List.mem_filter.mp hc3.1
  have hcs : c ∈ s := hc4.1
  have hword : isWordChar c = true := by
    have := hc4.2
    simp only [Bool.or_eq_true, decide_eq_true_eq] at this
    rcases this with hw | hsp
    · exact hw
    · exact absurd hsp hns
  exact ⟨lowerChar_word c hword, lowerChar_ne_space c hns, lowerChar_idem c,
    lowerChar_ascii c (hascii c hcs)⟩

/-! ## Claim theorems -/

/-- C1: for every search request whose release name encodes to a truthy
string, once the earlier candidate artists are exhausted and the next
candidate artist loads an entry whose combined `hits` list is nonempty,
`MappingLookupSearch.search` returns exactly one result — a one-element
sequence holding the hit of greatest combined confidence, where combined
confidence is the arithmetic mean of the recording-stage and release-stage
confidences (`mkHit`), and ties are broken by the order in which the
recording x release pairings are enumerated (`firstBestHit` picks the first
maximal hit). -/
theorem search_returns_single_best_hit
    (env : Env) (st st' st'' : MLS) (q : Bool) (pre rest : List Nat) (a : Nat)
    (e : ArtistEntry) (req : SearchReq)
    (hrel : truthy (encode_string req.release_name) = true)
    (hids : req.artist_ids = pre ++ a :: rest)
    (hpre : searchLoop env (encReq req) pre st = (none, st'))
    (hload : load_artist env st' a = (some e, st'', q))
    (hhits : artistHits env (encReq req) e ≠ []) :
    MappingLookupSearch.search env st req =
      (some [((firstBestHit (artistHits env (encReq req) e)).release_id,
              (firstBestHit (artistHits env (encReq req) e)).recording_id,
              (firstBestHit (artistHits env (encReq req) e)).confidence,
              req.id)], st'')
    ∧ firstBestHit (artistHits env (encReq req) e) ∈ artistHits env (encReq req) e
    ∧ ∀ h ∈ artistHits env (encReq req) e,
        h.confidence ≤ (firstBestHit (artistHits env (encReq req) e)).confidence := by
  rcases hh : artistHits env (encReq req) e with _ | ⟨h0, t⟩
  · exact absurd hh hhits
  · have hmax : ∀ h ∈ h0 :: t, h.confidence ≤ h0.confidence := by
      rw [← hh]
      exact hits_head_max e _ _ (recResults_pairwise env e (encReq req).recording_name)
        (relResults_pairwise env e (encReq req).release_name) h0 t hh
    have hfb : firstBestHit (h0 :: t) = h0 := firstBestHit_eq_head h0 t hmax
    have hstep : artistStep env (encReq req) e =
        some [(h0.release_id, h0.recording_id, h0.confidence, (encReq req).id)] := by
      unfold artistStep
      have ht : truthy (encReq req).release_name = true := hrel
      rw [ht]
      simp only [Bool.not_true, Bool.false_eq_true, if_false]
      rw [hh]
    constructor
    · unfold MappingLookupSearch.search
      rw [hids, searchLoop_append env (encReq req) pre (a :: rest) st st' hpre,
        searchLoop_found env (encReq req) a rest st' st'' q e _ hload hstep]
      rw [hfb]
      rfl
    · constructor
      · rw [hfb]; exact List.mem_cons_self h0 t
      · rw [hfb]; exact hmax

def c1Entry : ArtistEntry :=
  ⟨[(some ['w','a','r'], 0), (some ['p','e','a','c','e'], 1)],
   [⟨some ['w','a','r'], 0, [⟨100, 200, 5⟩]⟩, ⟨some ['p','e','a','c','e'], 1, [⟨101, 201, 4⟩]⟩],
   [(['w','a','r'], 0)],
   [(100, [200]), (101, [201])],
   [⟨['w','a','r'], 0, [(200, 5), (202, 3)]⟩]⟩

def c1Env : Env :=
  ⟨fun _ => [],
   fun _ _ _ => [⟨9, 0, ['w','a','r']⟩, ⟨6, 1, ['w','a','r']⟩],
   fun _ _ _ => [⟨8, 0, ['w','a','r']⟩]⟩

def c1St : MLS := ⟨[(1, c1Entry)]⟩

def c1Req : SearchReq := ⟨9, [1], none, some ['w','a','r'], some ['w','a','r']⟩

/-- C1 witness: a concrete request where two releases tie on confidence and
the singleton best hit is returned. -/
theorem search_returns_single_best_hit_witness :
    MappingLookupSearch.search c1Env c1St c1Req =
      (some [((firstBestHit (artistHits c1Env (encReq c1Req) c1Entry)).release_id,
              (firstBestHit (artistHits c1Env (encReq c1Req) c1Entry)).recording_id,
              (firstBestHit (artistHits c1Env (encReq c1Req) c1Entry)).confidence,
              c1Req.id)], c1St) :=
  (search_returns_single_best_hit c1Env c1St c1St c1St false [] [] 1 c1Entry c1Req
    (by decide) rfl rfl (by decide) (by decide)).1

/-- C2: a request whose single candidate artist has no rows: the search
falls off the end of the loop and yields `none` (Python `None`), not the
empty sequence `some []` that the claim demands. -/
theorem search_all_exhausted_returns_none_eval :
    (MappingLookupSearch.search ⟨fun _ => [], fun _ _ _ => [], fun _ _ _ => []⟩ ⟨[]⟩
        ⟨7, [3], none, none, some ['x']⟩).1 = none ∧
    ¬((MappingLookupSearch.search ⟨fun _ => [], fun _ _ _ => [], fun _ _ _ => []⟩ ⟨[]⟩
        ⟨7, [3], none, none, some ['x']⟩).1 = some []) := by
  constructor
  · rfl
  · decide

/-- C3 counterexample: with an empty row-store, the first `load_artist` call
returns NotFound with a row-store query and leaves the cache untouched, so
an immediately repeated call queries the row-store again (third component
`true` both times) — the NotFound outcome is not memoized and
indistinguishable from the never-attempted state. -/
theorem load_artist_notfound_requeries_cex :
    load_artist ⟨fun _ => [], fun _ _ _ => [], fun _ _ _ => []⟩ ⟨[]⟩ 5 = (none, ⟨[]⟩, true) ∧
    load_artist ⟨fun _ => [], fun _ _ _ => [], fun _ _ _ => []⟩
      (load_artist ⟨fun _ => [], fun _ _ _ => [], fun _ _ _ => []⟩ ⟨[]⟩ 5).2.1 5 =
      (none, ⟨[]⟩, true) := by
  constructor <;> rfl

/-- C3 (amended): when the row-store yields zero rows for an uncached
artist, `load_artist` returns NotFound (`none`) after querying the
row-store, but the outcome is NOT memoized: the cache is unchanged and a
second call queries the row-store again. -/
theorem load_artist_notfound_not_cached (env : Env) (st : MLS) (a : Nat)
    (hrows : env.rows a = []) (hl : lookupAC st a = none) :
    load_artist env st a = (none, st, true) ∧
    load_artist env (load_artist env st a).2.1 a = (none, st, true) := by
  have hb : buildEntry (env.rows a) = none := by rw [hrows]; rfl
  have h1 : load_artist env st a = (none, st, true) := load_artist_miss_none env st a hl hb
  exact ⟨h1, by rw [h1]; exact load_artist_miss_none env st a hl hb⟩

def c3Env : Env := ⟨fun _ => [], fun _ _ _ => [], fun _ _ _ => []⟩

/-- C3 witness. -/
theorem load_artist_notfound_not_cached_witness :
    load_artist c3Env ⟨[]⟩ 7 = (none, ⟨[]⟩, true) ∧
    load_artist c3Env (load_artist c3Env ⟨[]⟩ 7).2.1 7 = (none, ⟨[]⟩, true) :=
  load_artist_notfound_not_cached c3Env ⟨[]⟩ 7 rfl rfl

/-- C4: once a `load_artist` call succeeds with entry `e` and state `st'`,
an immediately following call for the same artist_credit_id returns the
structurally identical entry and state and performs no row-store read
(third component `false`). -/
theorem load_artist_memoized (env : Env) (st : MLS) (a : Nat) (e : ArtistEntry)
    (st' : MLS) (q : Bool) (h : load_artist env st a = (some e, st', q)) :
    load_artist env st' a = (some e, st', false) := by
  cases hl : lookupAC st a with
  | some e0 =>
    rw [load_artist_hit env st a e0 hl] at h
    injection h with h1 h2
    injection h2 with h2 h3
    injection h1 with h1
    subst h1
    subst h2
    subst h3
    exact load_artist_hit _ _ _ _ hl
  | none =>
    cases hb : buildEntry (env.rows a) with
    | none =>
      rw [load_artist_miss_none env st a hl hb] at h
      injection h with h1 _
      cases h1
    | some e1 =>
      rw [load_artist_miss_some env st a e1 hl hb] at h
      injection h with h1 h2
      injection h2 with h2 h3
      injection h1 with h1
      subst h1
      subst h2
      subst h3
      exact load_artist_hit _ _ _ _ (lookup_append_singleton hl)

def c4Env : Env :=
  ⟨fun _ => [⟨100, 200, some ['w','a','r'], some ['w','a','r'], 5⟩],
   fun _ _ _ => [], fun _ _ _ => []⟩

def c4Entry : ArtistEntry :=
  ⟨[(some ['w','a','r'], 0)],
   [⟨some ['w','a','r'], 0, [⟨100, 200, 5⟩]⟩],
   [(['w','a','r'], 0)],
   [(100, [200])],
   [⟨['w','a','r'], 0, [(200, 5)]⟩]⟩

/-- C4 witness: a call-counting run — the first call misses (row-store read,
flag `true`), the second returns the identical cached entry with flag
`false`. -/
theorem load_artist_memoized_witness :
    load_artist c4Env ⟨[(1, c4Entry)]⟩ 1 = (some c4Entry, ⟨[(1, c4Entry)]⟩, false) :=
  load_artist_memoized c4Env ⟨[]⟩ 1 c4Entry ⟨[(1, c4Entry)]⟩ true (by decide)

/-- C5 counterexample: with the nearest-neighbor backend available but the
index never built, `FuzzyIndex.search` raises (`self.vectorizer` is `None`,
so `.transform` raises AttributeError) instead of returning an empty
sequence. -/
theorem fuzzy_search_unbuilt_raises_cex :
    FuzzyIndex.search (FuzzyIndex.mkNew Unit true) ['a'] = Except.error () := rfl

/-- C5 (amended): when the backend is unavailable, `search` returns an empty
sequence without error for every query, whether or not (a no-op) `build` was
called; when the backend is available but the index was never built,
`search` is an error, not an empty result. -/
theorem fuzzyIndex_search_never_built (V : Type) (hn : Bool) (q : List Char)
    (fit : List (List Char) → (List Char → V))
    (ann : List (List Char × Nat) → (V → List (Nat × ℚ)))
    (data : List (List Char × Nat)) :
    (hn = false →
      ((FuzzyIndex.mkNew V hn).build fit ann data).search q = Except.ok [] ∧
      (FuzzyIndex.mkNew V hn).search q = Except.ok []) ∧
    (hn = true → (FuzzyIndex.mkNew V hn).search q = Except.error ()) := by
  constructor
  · rintro rfl
    exact ⟨rfl, rfl⟩
  · rintro rfl
    rfl

/-- C5 witness. -/
theorem fuzzyIndex_search_never_built_witness :
    (((FuzzyIndex.mkNew Unit false).build (fun _ _ => ()) (fun _ _ => []) []).search ['a'] =
      Except.ok []) ∧
    ((FuzzyIndex.mkNew Unit true).search ['b'] = Except.error ()) :=
  ⟨((fuzzyIndex_search_never_built Unit false ['a'] (fun _ _ => ()) (fun _ _ => []) []).1 rfl).1,
   (fuzzyIndex_search_never_built Unit true ['b'] (fun _ _ => ()) (fun _ _ => []) []).2 rfl⟩

/-- C6: the `FuzzyIndex.search` of src/fuzzy_index.py takes no
`min_confidence` parameter and filters nothing: on a built index whose
backend reports a signed similarity of -1/5 the result list contains a hit
with confidence 1/5 — the absolute value of the signed similarity — even
though 1/5 is below the 1/2 threshold its caller in src/search_index.py
line 155 asks for. -/
theorem fuzzyIndex_search_no_min_confidence_filter :
    FuzzyIndex.search
      ((FuzzyIndex.mkNew Unit true).build (fun _ _ => ()) (fun _ _ => [(7, -(1/5 : ℚ))])
        [(['w'], 7)]) ['q'] = Except.ok [⟨|(-(1/5 : ℚ))|, 7, ['q']⟩] ∧
    |(-(1/5 : ℚ))| < RECORDING_CONFIDENCE := by
  constructor
  · rfl
  · show |(-(1/5 : ℚ))| < 1/2
    rw [abs_neg, abs_of_pos (by norm_num : (0 : ℚ) < 1/5)]
    norm_num

/-- C7 counterexample: the normalizer is not idempotent. The CJK character
0x5317 is a word character, so it survives the filtering stages, and the
unidecode transliteration yields `Bei ` — capitalized, with a trailing
space — which a second normalization pass rewrites to `bei`. -/
theorem encode_string_not_idempotent_cex :
    ¬(encode_string (encode_string (some ['北'])) = encode_string (some ['北'])) := by
  decide

/-- C7 (amended): the normalizer is idempotent on every ASCII string (where
transliteration is the identity); in general a second application can
differ when transliteration introduces capitals or spaces. -/
theorem encode_string_ascii_idempotent (s : List Char) (h : ∀ c ∈ s, c.val < 0x80) :
    encode_string (encode_string (some s)) = encode_string (some s) := by
  have hclean : ∀ x ∈ pyLower (pyStrip (removeSpaces (keepWordSpace s))), CleanChar x :=
    pipeline_chars_clean s h
  have hU : unidecodeStr (pyLower (pyStrip (removeSpaces (keepWordSpace s)))) =
      pyLower (pyStrip (removeSpaces (keepWordSpace s))) :=
    unidecodeStr_ascii _ (fun c hc => (hclean c hc).2.2.2)
  show some (unidecodeStr (pyLower (pyStrip (removeSpaces (keepWordSpace
      (unidecodeStr (pyLower (pyStrip (removeSpaces (keepWordSpace s)))))))))) =
    some (unidecodeStr (pyLower (pyStrip (removeSpaces (keepWordSpace s)))))
  rw [hU]
  have h1 : keepWordSpace (pyLower (pyStrip (removeSpaces (keepWordSpace s)))) =
      pyLower (pyStrip (removeSpaces (keepWordSpace s))) :=
    List.filter_eq_self.mpr (fun c hc => by simp [(hclean c hc).1])
  have h2 : removeSpaces (pyLower (pyStrip (removeSpaces (keepWordSpace s)))) =
      pyLower (pyStrip (removeSpaces (keepWordSpace s))) :=
    List.filter_eq_self.mpr (fun c hc => by simp [(hclean c hc).2.1])
  have h3 : pyStrip (pyLower (pyStrip (removeSpaces (keepWordSpace s)))) =
      pyLower (pyStrip (removeSpaces (keepWordSpace s))) :=
    pyStrip_eq_self _ (fun c hc => word_not_pySpace c (hclean c hc).1 (hclean c hc).2.1)
  have h4 : pyLower (pyLower (pyStrip (removeSpaces (keepWordSpace s)))) =
      pyLower (pyStrip (removeSpaces (keepWordSpace s))) :=
    map_eq_self_of lowerChar _ (fun c hc => (hclean c hc).2.2.1)
  rw [h1, h2, h3, h4, hU]

/-- C7 witness. -/
theorem encode_string_ascii_idempotent_witness :
    (∀ c ∈ ['T','h','e',' ','B','e','a','t','l','e','s'], c.val < 0x80) ∧
    encode_string (encode_string (some ['T','h','e',' ','B','e','a','t','l','e','s'])) =
      encode_string (some ['T','h','e',' ','B','e','a','t','l','e','s']) :=
  ⟨by decide, encode_string_ascii_idempotent _ (by decide)⟩

/-- C8 counterexample: the empty normalized string generates zero trigrams
(the padded string has length 2, so the 3-wide sliding window produces no
window at all). -/
theorem ngrams_empty_string_cex : ngrams ([] : List Char) 3 = [] := rfl

/-- C8 (amended): `ngrams` pads the string with one leading and one trailing
space before windowing, and over the padded string the 3-window count is
exactly the original length, so every nonempty string — in particular
every string of length 1 — yields at least one trigram, while the empty
string yields none. -/
theorem ngrams_pads_and_counts (s : List Char) :
    ngrams s 3 = (List.range s.length).map
      (fun i => ((([' '] ++ s ++ [' ']).drop i).take 3)) ∧
    (ngrams s 3).length = s.length ∧
    (s ≠ [] → 1 ≤ (ngrams s 3).length) := by
  have hlen : ([' '] ++ s ++ [' ']).length + 1 - 3 = s.length := by
    simp only [List.length_append, List.length_cons, List.length_nil]
    omega
  have h1 : ngrams s 3 = (List.range s.length).map
      (fun i => ((([' '] ++ s ++ [' ']).drop i).take 3)) := by
    unfold ngrams
    rw [if_neg (by decide)]
    dsimp only
    rw [hlen]
  refine ⟨h1, ?_, ?_⟩
  · rw [h1, List.length_map, List.length_range]
  · intro hne
    rw [h1, List.length_map, List.length_range]
    exact List.length_pos.mpr hne

/-- C8 witness. -/
theorem ngrams_pads_and_counts_witness :
    (['a'] : List Char) ≠ [] ∧ 1 ≤ (ngrams ['a'] 3).length :=
  ⟨by decide, (ngrams_pads_and_counts ['a']).2.2 (by decide)⟩

/-- C9: the shard worker consumes requests one at a time; on a queue made of
non-exit requests, then the exit sentinel, then anything, it (a) behaves
exactly as on the non-exit prefix alone, (b) writes exactly one keyed result
per prefix request — nothing for the exit request or anything after it —
and (c) its phase trace alternates Ready/Processing through the prefix and
ends Ready, Stopped. -/
theorem worker_stops_at_exit (env : Env) (st : MLS) (pre post : List WReq) (ex : WReq)
    (hpre : ∀ r ∈ pre, r.isExit = false) (hex : ex.isExit = true) :
    mapping_lookup_process env (pre ++ ex :: post) st = mapping_lookup_process env pre st ∧
    (mapping_lookup_process env (pre ++ ex :: post) st).map Prod.fst =
      pre.map (fun r => r.req.id) ∧
    workerTrace (pre ++ ex :: post) =
      pre.flatMap (fun r => [WPhase.ready, WPhase.processing r.req.id]) ++
        [WPhase.ready, WPhase.stopped] := by
  induction pre generalizing st with
  | nil =>
    refine ⟨?_, ?_, ?_⟩ <;>
      simp [mapping_lookup_process, workerTrace, hex]
  | cons r tl ih =>
    have hr : r.isExit = false := hpre r (List.mem_cons_self r tl)
    have htl : ∀ x ∈ tl, x.isExit = false := fun x hx => hpre x (List.mem_cons_of_mem r hx)
    rcases hsearch : MappingLookupSearch.search env st r.req with ⟨ret, st2⟩
    have ihs := ih st2 htl
    refine ⟨?_, ?_, ?_⟩
    · simp only [List.cons_append, mapping_lookup_process, hr, hsearch]
      simp only [Bool.false_eq_true, if_false, List.append_eq]
      rw [ihs.1]
    · simp only [List.cons_append, mapping_lookup_process, hr, hsearch]
      simp only [Bool.false_eq_true, if_false, List.map_cons, List.append_eq]
      rw [ihs.2.1]
    · simp only [List.cons_append, workerTrace, hr]
      simp only [Bool.false_eq_true, if_false]
      rw [show tl.append (ex :: post) = tl ++ ex :: post from rfl, ihs.2.2]
      simp

def c9Env : Env := ⟨fun _ => [], fun _ _ _ => [], fun _ _ _ => []⟩

def c9Work : WReq := ⟨false, ⟨1, [], none, none, none⟩⟩

def c9Exit : WReq := ⟨true, ⟨2, [], none, none, none⟩⟩

def c9After : WReq := ⟨false, ⟨3, [], none, none, none⟩⟩

/-- C9 witness: one ordinary request, the exit sentinel, one request after
it — the run equals the run on the prefix alone. -/
theorem worker_stops_at_exit_witness :
    mapping_lookup_process c9Env ([c9Work] ++ c9Exit :: [c9After]) ⟨[]⟩ =
      mapping_lookup_process c9Env [c9Work] ⟨[]⟩ :=
  (worker_stops_at_exit c9Env ⟨[]⟩ [c9Work] [c9After] c9Exit (by decide) rfl).1

/-- C10: for an uncached artist whose rows are nonempty but whose release
names all encode to falsy values, `load_artist` returns NotFound (`none`)
and caches nothing, even though the recording grouping is nonempty (a
recording index could have been built); and every row — including rows
whose recording name encodes to `None` or the empty string — is still
grouped under its encoded recording text rather than dropped. -/
theorem load_artist_empty_release_names (env : Env) (st : MLS) (a : Nat)
    (h1 : env.rows a ≠ [])
    (h2 : ∀ r ∈ env.rows a, truthy (encode_string r.release_name) = false)
    (h3 : lookupAC st a = none) :
    load_artist env st a = (none, st, true) ∧
    recordingDataOf (env.rows a) ≠ [] ∧
    ∀ r ∈ env.rows a, ∃ g ∈ recordingDataOf (env.rows a),
      g.text = encode_string r.recording_name := by
  refine ⟨?_, recordingDataOf_ne_nil _ h1, fun r hr => recordingDataOf_text _ r hr⟩
  exact load_artist_miss_none env st a h3 (buildEntry_none_of_empty_releases _ h1 h2)

def c10Env : Env :=
  ⟨fun _ => [⟨100, 200, some ['w','a','r'], none, 5⟩, ⟨101, 201, none, some [], 4⟩],
   fun _ _ _ => [], fun _ _ _ => []⟩

/-- C10 witness: two rows — one release name `None`, one empty — and one
recording name `None`; the artist is dropped entirely and nothing cached. -/
theorem load_artist_empty_release_names_witness :
    load_artist c10Env ⟨[]⟩ 3 = (none, ⟨[]⟩, true) :=
  (load_artist_empty_release_names c10Env ⟨[]⟩ 3 (by decide) (by decide) rfl).1

end FastFuzzy
